import Mathlib

/-!
Verification of the move-search engine of the TwoPlayerGame repository.

The engine lives in the `MinimaxAB` module (`findBestMove`, `minimax`,
`getTerminalNodeState`, `max_search_depth`): a depth-bounded minimax search
with alpha-beta pruning over a mutable `BoardState`, walking the game tree
with the apply/undo (make/unmake) discipline.

The collaborators `GameLogic.js` (`checkWin`, `getAllPossibleMoves`) and
`GameState.js` (`BoardState`, `Move`, `applyMoveAndTurn`, `undoMove`,
`cloneInstance`) are not among the available sources; following the spec they
are treated as an abstract collaborator interface: a `GameM` record collects
exactly the operations the search invokes, and theorems that need the
apply/undo inverse law take it as the `UndoContract` hypothesis.

JavaScript numeric scores use `-Infinity` / `Infinity` as initial best values
and terminal win scores, and finite numbers from the heuristic; they are
embedded as `WithBot (WithTop ℤ)` (`⊥` = `-Infinity`, `⊤` = `Infinity`).

The search is embedded twice, by the same recursion as the source:
* `minimaxMutF` / `findBestMove` thread the board state through every
  apply/undo exactly as the mutating JavaScript does (each recursive call
  returns the board it leaves behind), so that the net-zero-mutation
  post-condition is provable rather than built in;
* `minimaxPureF` / `findBestMovePure` are the same algorithm with the board
  passed functionally; a bridge lemma shows the two agree under the
  apply/undo contract.
`plainMinimaxF` / `findBestMoveExhaustive` are the spec-side exhaustive
(unpruned) minimax used by the alpha-beta equivalence property.
-/

namespace TwoPlayerGame

/-- JavaScript score values of the search: `⊥` is `-Infinity`, `⊤` is
`Infinity`, coerced integers are the finite heuristic scores. -/
abbrev Score := WithBot (WithTop ℤ)

/-- A finite heuristic score as a `Score`. -/
def Score.ofInt (n : ℤ) : Score := ((n : WithTop ℤ) : Score)

/-- The constant `max_search_depth = 4` of the MinimaxAB module. -/
def max_search_depth : ℕ := 4

/-- The collaborator interface consumed by the search engine, over an abstract
board type `σ`, move type `μ` and snapshot type `π`.

* `moverIsMaximizing s` — the `isMaximizing` flag of the player found by
  `twoPlayer.find((player) => player.turn === true)`;
* `checkWin s isMax` — `checkWin(boardState, player)` from `GameLogic.js`,
  with the player designated by its `isMaximizing` flag (the code resolves
  `playerBot` / `playerUser` by that flag);
* `heuristicScore s` — the finite heuristic value computed at the depth
  cutoff (lines 315-338; its concrete formula is embedded separately as
  `heuristicScore` over `GridCell` lists);
* `getAllPossibleMoves s isMax` — `getAllPossibleMoves(boardState, player)`;
* `applyMoveAndTurn s mv` — the board after `boardState.applyMoveAndTurn`;
* `snapshotMove s mv` — the `new Move(src.cloneInstance(),
  tgt.cloneInstance(), playerState.cloneInstance())` record captured before
  applying;
* `undoMove b snap` — `boardState.undoMove(loggedMove)` applied to board `b`. -/
structure GameM (σ μ π : Type) where
  moverIsMaximizing : σ → Bool
  checkWin : σ → Bool → Bool
  heuristicScore : σ → ℤ
  getAllPossibleMoves : σ → Bool → List μ
  applyMoveAndTurn : σ → μ → σ
  snapshotMove : σ → μ → π
  undoMove : σ → π → σ

/-- The collaborator contract of the spec: `undo(snapshot(M)) ∘ apply(M)` is
the identity on every board. -/
def UndoContract {σ μ π : Type} (g : GameM σ μ π) : Prop :=
  ∀ (s : σ) (mv : μ), g.undoMove (g.applyMoveAndTurn s mv) (g.snapshotMove s mv) = s

/-- Embedding of `getTerminalNodeState(boardState, depth)`: `Infinity` when the maximizing
player (bot) has won, `-Infinity` when the minimizing player (user) has won,
the heuristic score at the depth cutoff, `null` otherwise. -/
def getTerminalNodeState {σ μ π : Type} (g : GameM σ μ π) (s : σ) (depth : ℕ) :
    Option Score :=
  if g.checkWin s true then some ⊤
  else if g.checkWin s false then some ⊥
  else if depth = max_search_depth then some (Score.ofInt (g.heuristicScore s))
  else none

/-- The maximizing-player candidate loop of `minimax` (lines 363-384), with
the recursive evaluation of an applied move abstracted as `recur`:
`m` is `max_eval`, `alpha` the running alpha; after each child the code takes
`max_eval = max(max_eval, evaluate)`, `alpha = max(alpha, max_eval)` and
breaks when `beta <= alpha`. -/
def maxLoop (beta : Score) (recur : μ → Score → Score) :
    List μ → Score → Score → Score
  | [], m, _ => m
  | mv :: rest, m, alpha =>
    let c := recur mv alpha
    let m' := max m c
    let alpha' := max alpha m'
    if beta ≤ alpha' then m' else maxLoop beta recur rest m' alpha'

/-- The minimizing-player candidate loop of `minimax` (lines 385-409):
`m` is `min_eval`, `beta` the running beta; `min_eval = min(min_eval,
evaluate)`, `beta = min(beta, min_eval)`, break when `beta <= alpha`. -/
def minLoop (alpha : Score) (recur : μ → Score → Score) :
    List μ → Score → Score → Score
  | [], m, _ => m
  | mv :: rest, m, beta =>
    let c := recur mv beta
    let m' := min m c
    let beta' := min beta m'
    if beta' ≤ alpha then m' else minLoop alpha recur rest m' beta'

/-- The search `minimax(boardState, depth, alpha, beta)` with the board passed
functionally instead of mutated in place. `fuel` bounds the recursion for
Lean's termination checker; the wrapper `minimaxPure` supplies
`max_search_depth + 1 - depth`, which the depth-cutoff terminal test never
lets run out (the `fuel = 0` default `0` is unreachable from the wrapper). -/
def minimaxPureF {σ μ π : Type} (g : GameM σ μ π) :
    ℕ → σ → ℕ → Score → Score → Score
  | fuel, s, depth, alpha, beta =>
    match getTerminalNodeState g s depth with
    | some v => v
    | none =>
      match fuel with
      | 0 => 0
      | fuel' + 1 =>
        if g.moverIsMaximizing s then
          maxLoop beta
            (fun mv a => minimaxPureF g fuel' (g.applyMoveAndTurn s mv) (depth + 1) a beta)
            (g.getAllPossibleMoves s true) ⊥ alpha
        else
          minLoop alpha
            (fun mv b => minimaxPureF g fuel' (g.applyMoveAndTurn s mv) (depth + 1) alpha b)
            (g.getAllPossibleMoves s false) ⊤ beta

/-- The maximizing-player candidate loop with the in-place board mutation made
explicit: each iteration snapshots the current board, applies the move,
recurses (`recur b alpha` returns the score and the board the recursion
leaves behind) and undoes the snapshot — also on the pruning break path. -/
def maxLoopMut {σ μ π : Type} (g : GameM σ μ π) (beta : Score)
    (recur : σ → Score → Score × σ) :
    σ → List μ → Score → Score → Score × σ
  | s, [], m, _ => (m, s)
  | s, mv :: rest, m, alpha =>
    let snap := g.snapshotMove s mv
    let r := recur (g.applyMoveAndTurn s mv) alpha
    let s2 := g.undoMove r.2 snap
    let m' := max m r.1
    let alpha' := max alpha m'
    if beta ≤ alpha' then (m', s2) else maxLoopMut g beta recur s2 rest m' alpha'

/-- The minimizing-player candidate loop with explicit board threading. -/
def minLoopMut {σ μ π : Type} (g : GameM σ μ π) (alpha : Score)
    (recur : σ → Score → Score × σ) :
    σ → List μ → Score → Score → Score × σ
  | s, [], m, _ => (m, s)
  | s, mv :: rest, m, beta =>
    let snap := g.snapshotMove s mv
    let r := recur (g.applyMoveAndTurn s mv) beta
    let s2 := g.undoMove r.2 snap
    let m' := min m r.1
    let beta' := min beta m'
    if beta' ≤ alpha then (m', s2) else minLoopMut g alpha recur s2 rest m' beta'

/-- The search `minimax(boardState, depth, alpha, beta)` with the in-place
mutation of `boardState` made explicit: the result is the score together with
the board the call leaves behind. -/
def minimaxMutF {σ μ π : Type} (g : GameM σ μ π) :
    ℕ → σ → ℕ → Score → Score → Score × σ
  | fuel, s, depth, alpha, beta =>
    match getTerminalNodeState g s depth with
    | some v => (v, s)
    | none =>
      match fuel with
      | 0 => (0, s)
      | fuel' + 1 =>
        if g.moverIsMaximizing s then
          maxLoopMut g beta
            (fun b a => minimaxMutF g fuel' b (depth + 1) a beta)
            s (g.getAllPossibleMoves s true) ⊥ alpha
        else
          minLoopMut g alpha
            (fun b bt => minimaxMutF g fuel' b (depth + 1) alpha bt)
            s (g.getAllPossibleMoves s false) ⊤ beta

/-- Embedding of `minimax(boardState, depth, alpha, beta)`: the faithful
recursive search, returning the score and the board state it leaves behind. -/
def minimax {σ μ π : Type} (g : GameM σ μ π) (s : σ) (depth : ℕ)
    (alpha beta : Score) : Score × σ :=
  minimaxMutF g (max_search_depth + 1 - depth) s depth alpha beta

/-- The search `minimax` with the board passed functionally. -/
def minimaxPure {σ μ π : Type} (g : GameM σ μ π) (s : σ) (depth : ℕ)
    (alpha beta : Score) : Score :=
  minimaxPureF g (max_search_depth + 1 - depth) s depth alpha beta

/-- Exhaustive (unpruned) minimax over the same game tree, as the spec's
alpha-beta equivalence property describes it: identical terminal test and
candidate order, but every child is evaluated and combined with `max` / `min`
without an alpha-beta window. -/
def plainMinimaxF {σ μ π : Type} (g : GameM σ μ π) : ℕ → σ → ℕ → Score
  | fuel, s, depth =>
    match getTerminalNodeState g s depth with
    | some v => v
    | none =>
      match fuel with
      | 0 => 0
      | fuel' + 1 =>
        if g.moverIsMaximizing s then
          (g.getAllPossibleMoves s true).foldl
            (fun m mv => max m (plainMinimaxF g fuel' (g.applyMoveAndTurn s mv) (depth + 1))) ⊥
        else
          (g.getAllPossibleMoves s false).foldl
            (fun m mv => min m (plainMinimaxF g fuel' (g.applyMoveAndTurn s mv) (depth + 1))) ⊤

/-- Exhaustive minimax at the fuel the engine's wrapper uses. -/
def plainMinimax {σ μ π : Type} (g : GameM σ μ π) (s : σ) (depth : ℕ) : Score :=
  plainMinimaxF g (max_search_depth + 1 - depth) s depth

/-- The two tagged precondition errors thrown by `findBestMove`:
`WrongTurn` (`"findBestMove must be invoked for the bot AI opponent ..."`)
and `NoLegalMoves` (`"could not determine possible moves"`). -/
inductive SearchError
  | wrongTurn
  | noLegalMoves
deriving DecidableEq

/-- The root candidate loop of `findBestMove` (lines 434-448), with explicit
board threading: snapshot, apply, `minimax(boardState, 0, -Infinity,
Infinity)`, undo; a candidate replaces the incumbent only when its score is
strictly greater (`score_for_this_move > best_score`). -/
def findBestMoveLoopMut {σ μ π : Type} (g : GameM σ μ π) :
    σ → List μ → Score → Option μ → Option μ × σ
  | s, [], _, best => (best, s)
  | s, mv :: rest, bestScore, best =>
    let snap := g.snapshotMove s mv
    let r := minimax g (g.applyMoveAndTurn s mv) 0 ⊥ ⊤
    let s2 := g.undoMove r.2 snap
    if bestScore < r.1 then findBestMoveLoopMut g s2 rest r.1 (some mv)
    else findBestMoveLoopMut g s2 rest bestScore best

/-- Embedding of `findBestMove(boardState)`: the faithful root
orchestrator, returning the chosen move (or a tagged error) together with the
board state it leaves behind. The `WrongTurn` check and the `NoLegalMoves`
check precede the candidate loop; after the loop a `null` best move falls
back to the first candidate (`best_move === null ? possibleMoves[0] :
best_move`). -/
def findBestMove {σ μ π : Type} (g : GameM σ μ π) (s : σ) :
    Except SearchError μ × σ :=
  if g.moverIsMaximizing s = false then (Except.error SearchError.wrongTurn, s)
  else
    match g.getAllPossibleMoves s true with
    | [] => (Except.error SearchError.noLegalMoves, s)
    | mv0 :: rest =>
      let r := findBestMoveLoopMut g s (mv0 :: rest) ⊥ none
      (Except.ok (r.1.getD mv0), r.2)

/-- The score `findBestMove` assigns to a root candidate: apply it to the
root board and run `minimax` at depth `0` with the full window. -/
def rootScore {σ μ π : Type} (g : GameM σ μ π) (s : σ) (mv : μ) : Score :=
  minimaxPure g (g.applyMoveAndTurn s mv) 0 ⊥ ⊤

/-- The root candidate loop with the per-candidate score abstracted as `f`. -/
def findBestMoveLoop {μ : Type} (f : μ → Score) :
    List μ → Score → Option μ → Option μ
  | [], _, best => best
  | mv :: rest, bestScore, best =>
    if bestScore < f mv then findBestMoveLoop f rest (f mv) (some mv)
    else findBestMoveLoop f rest bestScore best

/-- The orchestrator `findBestMove` with the board passed functionally. -/
def findBestMovePure {σ μ π : Type} (g : GameM σ μ π) (s : σ) :
    Except SearchError μ :=
  if g.moverIsMaximizing s = false then Except.error SearchError.wrongTurn
  else
    match g.getAllPossibleMoves s true with
    | [] => Except.error SearchError.noLegalMoves
    | mv0 :: rest =>
      Except.ok ((findBestMoveLoop (rootScore g s) (mv0 :: rest) ⊥ none).getD mv0)

/-- Exhaustive root score of a candidate: unpruned minimax of the applied
move. -/
def rootScoreExhaustive {σ μ π : Type} (g : GameM σ μ π) (s : σ) (mv : μ) : Score :=
  plainMinimax g (g.applyMoveAndTurn s mv) 0

/-- The root orchestrator over the exhaustive (unpruned) minimax: same
precondition checks, candidate order, strict-improvement selection and
first-candidate fallback. -/
def findBestMoveExhaustive {σ μ π : Type} (g : GameM σ μ π) (s : σ) :
    Except SearchError μ :=
  if g.moverIsMaximizing s = false then Except.error SearchError.wrongTurn
  else
    match g.getAllPossibleMoves s true with
    | [] => Except.error SearchError.noLegalMoves
    | mv0 :: rest =>
      Except.ok ((findBestMoveLoop (rootScoreExhaustive g s) (mv0 :: rest) ⊥ none).getD mv0)

/-! ### The heuristic evaluator's concrete data model

`getTerminalNodeState` computes the depth-cutoff heuristic from the cells and
players of the DOM-decoupled `BoardState` (lines 315-338). The cell and player
records carry exactly the fields that code reads. -/

/-- The two fixed player identities (`PLAYER_ID.USER`, `PLAYER_ID.BOT`). -/
inductive PlayerId
  | user
  | bot
deriving DecidableEq

/-- A player's vault record of captured material. -/
structure Vault where
  self : ℕ
  opponent : ℕ
deriving DecidableEq

/-- The player record fields the search and heuristic read. -/
structure GamePlayer where
  id : PlayerId
  isMaximizing : Bool
  turn : Bool
  vault : Vault
  safetyTower : ℕ
  winner : Bool
deriving DecidableEq

/-- A board cell as the heuristic reads it: `row`, the owner stack
`svgLayout` (bottom to top — `.at(-1)` is the current owner), and the
secured-tower flag `dot`. -/
structure GridCell where
  row : ℕ
  svgLayout : List PlayerId
  dot : Bool
deriving DecidableEq

/-- The four accumulators of the heuristic loop: `botTowers`, `userTowers`,
`botTowerSecureWeight`, `userTowerSecureWeight`. -/
structure HeurAcc where
  botTowers : ℤ
  userTowers : ℤ
  botTowerSecureWeight : ℤ
  userTowerSecureWeight : ℤ
deriving DecidableEq

/-- One iteration of the heuristic's `boardState.cells.forEach` body:
if the cell's top owner is the bot, count it and (when `dot` is set) add
`cell.row + 1`; if the top owner is the user, count it and (when `dot` is
set) add `6 - cell.row`. -/
def heurStep (playerBot playerUser : GamePlayer) (acc : HeurAcc) (cell : GridCell) :
    HeurAcc :=
  let acc1 :=
    if cell.svgLayout.getLast? = some playerBot.id then
      { acc with
        botTowers := acc.botTowers + 1
        botTowerSecureWeight :=
          if cell.dot = true then acc.botTowerSecureWeight + ((cell.row : ℤ) + 1)
          else acc.botTowerSecureWeight }
    else acc
  if cell.svgLayout.getLast? = some playerUser.id then
    { acc1 with
      userTowers := acc1.userTowers + 1
      userTowerSecureWeight :=
        if cell.dot = true then acc1.userTowerSecureWeight + (6 - (cell.row : ℤ))
        else acc1.userTowerSecureWeight }
  else acc1

/-- The depth-cutoff heuristic of `getTerminalNodeState` (lines 315-338):
`(botTowers - userTowers) * 10 + (botTowerSecureWeight -
userTowerSecureWeight) * 10 + (playerBot.vault.opponent -
playerUser.vault.opponent) * 20`. -/
def heuristicScore (cells : List GridCell) (playerBot playerUser : GamePlayer) : ℤ :=
  let acc := cells.foldl (heurStep playerBot playerUser) ⟨0, 0, 0, 0⟩
  (acc.botTowers - acc.userTowers) * 10
    + (acc.botTowerSecureWeight - acc.userTowerSecureWeight) * 10
    + ((playerBot.vault.opponent : ℤ) - (playerUser.vault.opponent : ℤ)) * 20

/-- Spec-side quantity: the number of cells whose top stack entry is `pid`. -/
def towerCount (cells : List GridCell) (pid : PlayerId) : ℤ :=
  ((cells.filter (fun c => decide (c.svgLayout.getLast? = some pid))).length : ℤ)

/-- Spec-side quantity: the sum of `row + 1` over `pid`'s secured cells. -/
def securedWeightBot (cells : List GridCell) (pid : PlayerId) : ℤ :=
  ((cells.filter (fun c => decide (c.svgLayout.getLast? = some pid ∧ c.dot = true))).map
    (fun c => (c.row : ℤ) + 1)).sum

/-- Spec-side quantity: the sum of `boardHeight - row` (with board height 6)
over `pid`'s secured cells. -/
def securedWeightUser (cells : List GridCell) (pid : PlayerId) : ℤ :=
  ((cells.filter (fun c => decide (c.svgLayout.getLast? = some pid ∧ c.dot = true))).map
    (fun c => 6 - (c.row : ℤ))).sum

/-- The heuristic as a function of the aggregate quantities of the spec's
formula: tower difference times 10, secured-weight difference times 10,
captured-material difference times 20. -/
def heuristicOfParts (bt ut bw uw vb vu : ℤ) : ℤ :=
  (bt - ut) * 10 + (bw - uw) * 10 + (vb - vu) * 20

/-! ### Settings (ConfigState.js factories) and the AiWorker call shape -/

/-- The winning-rules settings record (`factoryWinningRules`):
`{ safetyZone, materialOpponent }`. -/
structure WinningRules where
  safetyZone : ℕ
  materialOpponent : ℕ
deriving DecidableEq

/-- The search-rules settings record (`factorySearchRules`):
`{ depth, timeout }`. -/
structure SearchRules where
  depth : ℕ
  timeout : ℕ
deriving DecidableEq

/-- The settings snapshot the boundary passes to the worker. -/
structure Settings where
  winningRules : WinningRules
  searchRules : SearchRules
deriving DecidableEq

/-- Factory defaults `{ safetyZone: 1, materialOpponent: 6 }`
(ConfigState.js). -/
def factoryWinningRules : WinningRules := { safetyZone := 1, materialOpponent := 6 }

/-- Factory defaults `{ depth: 4, timeout: 10 }` (ConfigState.js). -/
def factorySearchRules : SearchRules := { depth := 4, timeout := 10 }

/-- The factory settings snapshot. -/
def factorySettings : Settings :=
  { winningRules := factoryWinningRules, searchRules := factorySearchRules }

/-- The call shape of AiWorker.js: `findBestMove(boardState, settings)`.
The engine's `findBestMove(boardState)` declares a single parameter, so
JavaScript discards the second argument; the embedding records that the
supplied snapshot does not enter the computation. -/
def findBestMoveCall {σ μ π : Type} (g : GameM σ μ π) (s : σ) (_st : Settings) :
    Except SearchError μ × σ :=
  findBestMove g s

/-- Modelled from the spec: `checkWin` of the missing `GameLogic.js` is
specified as `isWin(board, player, settings)`, true when the player has
satisfied either the secured-tower-count threshold or the opponent-vault
threshold taken from `settings`; the player's relevant board data is its
`GamePlayer` record (`safetyTower` counter and `vault`). -/
def isWinSpec (p : GamePlayer) (st : Settings) : Bool :=
  decide (st.winningRules.safetyZone ≤ p.safetyTower)
    || decide (st.winningRules.materialOpponent ≤ p.vault.opponent)

/-! ### The worker boundary (dispatchWorker of the AsyncAPIWrapper module) -/

/-- The request/response envelope `workerMessageScheme`:
`{ request: { type, parameter }, response: { error, message } }`. -/
structure WorkerEnvelope where
  requestType : String
  requestParameter : List String
  responseError : Bool
  responseMessage : Option String
deriving DecidableEq

/-- The frozen scheme value
`{ request: { type: "", parameter: [] }, response: { error: false, message: null } }`. -/
def workerMessageScheme : WorkerEnvelope :=
  { requestType := "", requestParameter := [], responseError := false,
    responseMessage := none }

/-- The message the timeout promise resolves with: a `structuredClone` of
`workerMessageScheme` with `response.error = true` and
`response.message = "timeout"` (dispatchWorker, lines 362-369). -/
def timeoutMessage : WorkerEnvelope :=
  { workerMessageScheme with responseError := true, responseMessage := some "timeout" }

/-- The events that can settle the race in `dispatchWorker`: the timer fires,
the worker posts a response message, or the worker raises an error event. -/
inductive BoundaryEvent
  | timerFired
  | workerMessage (resp : WorkerEnvelope)
  | workerError (msg : String)

/-- `Promise.race([workerPromise, timeoutPromise])` as a function of the
order in which the settling events occur (a promise keeps the first
settlement): the timer firing resolves with `timeoutMessage`; a worker
response message resolves with that response (in this typed model every
`WorkerEnvelope` passes the `messageSchemeComparator` shape checks); a worker
error event rejects. Events after the first are discarded — in particular the
worker computation is never cancelled and its late response is ignored. -/
def raceSettle : List BoundaryEvent → Option (Except String WorkerEnvelope)
  | [] => none
  | BoundaryEvent.timerFired :: _ => some (Except.ok timeoutMessage)
  | BoundaryEvent.workerMessage r :: _ => some (Except.ok r)
  | BoundaryEvent.workerError e :: _ =>
    some (Except.error ("Uncaught error for worker: " ++ e))

/-! ### Concrete mock collaborators (witness inputs) -/

/-- A small executable mock game satisfying the collaborator contract:
positions are `(value, whoseTurn)`, moves add to the value and flip the turn,
snapshots are full copies, nobody ever wins. -/
def exGame : GameM (ℤ × Bool) ℤ (ℤ × Bool) where
  moverIsMaximizing s := s.2
  checkWin _ _ := false
  heuristicScore s := s.1
  getAllPossibleMoves _ _ := [0, 1]
  applyMoveAndTurn s mv := (s.1 + mv, !s.2)
  snapshotMove s _ := s
  undoMove _ snap := snap

/-- A mock game in which the maximizing player's win condition always holds. -/
def exGameWin : GameM (ℤ × Bool) ℤ (ℤ × Bool) where
  moverIsMaximizing s := s.2
  checkWin _ isMax := isMax
  heuristicScore s := s.1
  getAllPossibleMoves _ _ := [0, 1]
  applyMoveAndTurn s mv := (s.1 + mv, !s.2)
  snapshotMove s _ := s
  undoMove _ snap := snap

/-- A mock game with no legal moves anywhere and no won positions. -/
def exGameNoMoves : GameM (ℤ × Bool) ℤ (ℤ × Bool) where
  moverIsMaximizing s := s.2
  checkWin _ _ := false
  heuristicScore s := s.1
  getAllPossibleMoves _ _ := []
  applyMoveAndTurn s _ := s
  snapshotMove s _ := s
  undoMove _ snap := snap

/-- A concrete bot player record: no secured towers, six captured opponent
pieces — a win under the factory thresholds, not under high thresholds. -/
def playerBotEx : GamePlayer :=
  { id := PlayerId.bot, isMaximizing := true, turn := true,
    vault := { self := 0, opponent := 6 }, safetyTower := 0, winner := false }

/-- A concrete user player record with nothing captured and nothing secured. -/
def playerUserEx : GamePlayer :=
  { id := PlayerId.user, isMaximizing := false, turn := false,
    vault := { self := 0, opponent := 0 }, safetyTower := 0, winner := false }

/-- A settings snapshot whose two winning thresholds are out of reach. -/
def settingsHighThresholds : Settings :=
  { winningRules := { safetyZone := 99, materialOpponent := 99 },
    searchRules := factorySearchRules }

/-- Mock game for the settings-threading question: its `checkWin` evaluates
the spec's `isWin` for `playerBotEx` against the persisted factory settings —
the search passes it no settings of its own. -/
def exGameC7 : GameM (ℤ × Bool) ℤ (ℤ × Bool) where
  moverIsMaximizing s := s.2
  checkWin _ isMax := isMax && isWinSpec playerBotEx factorySettings
  heuristicScore s := s.1
  getAllPossibleMoves _ _ := [0, 1]
  applyMoveAndTurn s mv := (s.1 + mv, !s.2)
  snapshotMove s _ := s
  undoMove _ snap := snap

/-- The same mock with its win evaluator reading the high-threshold snapshot
instead: what the terminal test would compute if the thresholds came from
that supplied snapshot. -/
def exGameC7Alt : GameM (ℤ × Bool) ℤ (ℤ × Bool) where
  moverIsMaximizing s := s.2
  checkWin _ isMax := isMax && isWinSpec playerBotEx settingsHighThresholds
  heuristicScore s := s.1
  getAllPossibleMoves _ _ := [0, 1]
  applyMoveAndTurn s mv := (s.1 + mv, !s.2)
  snapshotMove s _ := s
  undoMove _ snap := snap

/-! ### Unfolding lemmas for the recursive definitions -/

variable {σ μ π : Type} (g : GameM σ μ π)

lemma minimaxPureF_term {s : σ} {d : ℕ} {v : Score}
    (h : getTerminalNodeState g s d = some v) (fuel : ℕ) (a b : Score) :
    minimaxPureF g fuel s d a b = v := by
  cases fuel <;> simp [minimaxPureF, h]

lemma minimaxPureF_succ_max {s : σ} {d : ℕ}
    (h : getTerminalNodeState g s d = none) (hm : g.moverIsMaximizing s = true)
    (fuel : ℕ) (a b : Score) :
    minimaxPureF g (fuel + 1) s d a b =
      maxLoop b (fun mv a' => minimaxPureF g fuel (g.applyMoveAndTurn s mv) (d + 1) a' b)
        (g.getAllPossibleMoves s true) ⊥ a := by
  simp [minimaxPureF, h, hm]

lemma minimaxPureF_succ_min {s : σ} {d : ℕ}
    (h : getTerminalNodeState g s d = none) (hm : g.moverIsMaximizing s = false)
    (fuel : ℕ) (a b : Score) :
    minimaxPureF g (fuel + 1) s d a b =
      minLoop a (fun mv b' => minimaxPureF g fuel (g.applyMoveAndTurn s mv) (d + 1) a b')
        (g.getAllPossibleMoves s false) ⊤ b := by
  simp [minimaxPureF, h, hm]

lemma minimaxMutF_term {s : σ} {d : ℕ} {v : Score}
    (h : getTerminalNodeState g s d = some v) (fuel : ℕ) (a b : Score) :
    minimaxMutF g fuel s d a b = (v, s) := by
  cases fuel <;> simp [minimaxMutF, h]

lemma minimaxMutF_succ_max {s : σ} {d : ℕ}
    (h : getTerminalNodeState g s d = none) (hm : g.moverIsMaximizing s = true)
    (fuel : ℕ) (a b : Score) :
    minimaxMutF g (fuel + 1) s d a b =
      maxLoopMut g b (fun b' a' => minimaxMutF g fuel b' (d + 1) a' b)
        s (g.getAllPossibleMoves s true) ⊥ a := by
  simp [minimaxMutF, h, hm]

lemma minimaxMutF_succ_min {s : σ} {d : ℕ}
    (h : getTerminalNodeState g s d = none) (hm : g.moverIsMaximizing s = false)
    (fuel : ℕ) (a b : Score) :
    minimaxMutF g (fuel + 1) s d a b =
      minLoopMut g a (fun b' bt => minimaxMutF g fuel b' (d + 1) a bt)
        s (g.getAllPossibleMoves s false) ⊤ b := by
  simp [minimaxMutF, h, hm]

lemma plainMinimaxF_term {s : σ} {d : ℕ} {v : Score}
    (h : getTerminalNodeState g s d = some v) (fuel : ℕ) :
    plainMinimaxF g fuel s d = v := by
  cases fuel <;> simp [plainMinimaxF, h]

lemma plainMinimaxF_succ_max {s : σ} {d : ℕ}
    (h : getTerminalNodeState g s d = none) (hm : g.moverIsMaximizing s = true)
    (fuel : ℕ) :
    plainMinimaxF g (fuel + 1) s d =
      (g.getAllPossibleMoves s true).foldl
        (fun m mv => max m (plainMinimaxF g fuel (g.applyMoveAndTurn s mv) (d + 1))) ⊥ := by
  simp [plainMinimaxF, h, hm]

lemma plainMinimaxF_succ_min {s : σ} {d : ℕ}
    (h : getTerminalNodeState g s d = none) (hm : g.moverIsMaximizing s = false)
    (fuel : ℕ) :
    plainMinimaxF g (fuel + 1) s d =
      (g.getAllPossibleMoves s false).foldl
        (fun m mv => min m (plainMinimaxF g fuel (g.applyMoveAndTurn s mv) (d + 1))) ⊤ := by
  simp [plainMinimaxF, h, hm]

/-! ### The mutating search equals the functional search and restores the
board (the apply/undo discipline, under the collaborator contract) -/

lemma maxLoopMut_eq (hc : UndoContract g) (beta : Score)
    (recurM : σ → Score → Score × σ) (hpres : ∀ b a, (recurM b a).2 = b) :
    ∀ (l : List μ) (s : σ) (m alpha : Score),
      maxLoopMut g beta recurM s l m alpha =
        (maxLoop beta (fun mv a => (recurM (g.applyMoveAndTurn s mv) a).1) l m alpha, s) := by
  intro l
  induction l with
  | nil => intro s m alpha; simp [maxLoopMut, maxLoop]
  | cons mv rest ih =>
    intro s m alpha
    simp only [maxLoopMut, maxLoop]
    rw [hpres (g.applyMoveAndTurn s mv) alpha, hc s mv]
    split
    · rfl
    · exact ih s _ _

lemma minLoopMut_eq (hc : UndoContract g) (alpha : Score)
    (recurM : σ → Score → Score × σ) (hpres : ∀ b bt, (recurM b bt).2 = b) :
    ∀ (l : List μ) (s : σ) (m beta : Score),
      minLoopMut g alpha recurM s l m beta =
        (minLoop alpha (fun mv bt => (recurM (g.applyMoveAndTurn s mv) bt).1) l m beta, s) := by
  intro l
  induction l with
  | nil => intro s m beta; simp [minLoopMut, minLoop]
  | cons mv rest ih =>
    intro s m beta
    simp only [minLoopMut, minLoop]
    rw [hpres (g.applyMoveAndTurn s mv) beta, hc s mv]
    split
    · rfl
    · exact ih s _ _

/-- Under the apply/undo contract, the mutating `minimax` computes the same
score as the functional one and hands back the exact board it was given:
every `applyMoveAndTurn` is cancelled by the matching `undoMove`, on every
exit path including pruning breaks. -/
lemma minimaxMutF_eq (hc : UndoContract g) :
    ∀ (fuel : ℕ) (s : σ) (d : ℕ) (a b : Score),
      minimaxMutF g fuel s d a b = (minimaxPureF g fuel s d a b, s) := by
  intro fuel
  induction fuel with
  | zero =>
    intro s d a b
    cases h : getTerminalNodeState g s d with
    | some v => rw [minimaxMutF_term g h, minimaxPureF_term g h]
    | none => simp [minimaxMutF, minimaxPureF, h]
  | succ fuel ih =>
    intro s d a b
    cases h : getTerminalNodeState g s d with
    | some v => rw [minimaxMutF_term g h, minimaxPureF_term g h]
    | none =>
      cases hm : g.moverIsMaximizing s with
      | true =>
        rw [minimaxMutF_succ_max g h hm, minimaxPureF_succ_max g h hm,
          maxLoopMut_eq g hc b _ (fun b' a' => by rw [ih b' (d + 1) a' b])]
        simp only [ih]
      | false =>
        rw [minimaxMutF_succ_min g h hm, minimaxPureF_succ_min g h hm,
          minLoopMut_eq g hc a _ (fun b' bt => by rw [ih b' (d + 1) a bt])]
        simp only [ih]

/-- The wrapper `minimax` restores its board and agrees with the functional
search. -/
lemma minimax_eq (hc : UndoContract g) (s : σ) (d : ℕ) (a b : Score) :
    minimax g s d a b = (minimaxPure g s d a b, s) :=
  minimaxMutF_eq g hc _ s d a b

/-- The root candidate loop restores its board and agrees with the score-only
loop over `rootScore`. -/
lemma findBestMoveLoopMut_eq (hc : UndoContract g) :
    ∀ (l : List μ) (s : σ) (bs : Score) (best : Option μ),
      findBestMoveLoopMut g s l bs best =
        (findBestMoveLoop (rootScore g s) l bs best, s) := by
  intro l
  induction l with
  | nil => intro s bs best; simp [findBestMoveLoopMut, findBestMoveLoop]
  | cons mv rest ih =>
    intro s bs best
    simp only [findBestMoveLoopMut, findBestMoveLoop]
    rw [minimax_eq g hc, hc s mv]
    simp only [rootScore]
    split
    · exact ih s _ _
    · exact ih s _ _

/-- The orchestrator `findBestMove` computes the same outcome as the
functional orchestrator and leaves the board exactly as it found it. -/
lemma findBestMove_eq (hc : UndoContract g) (s : σ) :
    findBestMove g s = (findBestMovePure g s, s) := by
  unfold findBestMove findBestMovePure
  split
  · rfl
  · cases hl : g.getAllPossibleMoves s true with
    | nil => rfl
    | cons mv0 rest => simp only [findBestMoveLoopMut_eq g hc]

/-! ### Alpha-beta pruning computes the exhaustive minimax value

The classical fail-soft invariant: inside a window `alpha < beta`, the pruned
value and the exhaustive value agree after clamping to the window,
`max alpha (min beta ·)`. At the root window `(⊥, ⊤)` the clamp is the
identity, giving exact agreement. -/

lemma foldl_max_init {μ : Type} (f : μ → Score) :
    ∀ (l : List μ) (x : Score),
      l.foldl (fun a mv => max a (f mv)) x
        = max x (l.foldl (fun a mv => max a (f mv)) ⊥) := by
  intro l
  induction l with
  | nil => intro x; simp [max_eq_left bot_le]
  | cons mv rest ih =>
    intro x
    simp only [List.foldl_cons]
    rw [ih (max x (f mv)), ih (max ⊥ (f mv)), max_comm ⊥ (f mv), max_eq_left bot_le,
      max_assoc]

lemma foldl_min_init {μ : Type} (f : μ → Score) :
    ∀ (l : List μ) (x : Score),
      l.foldl (fun a mv => min a (f mv)) x
        = min x (l.foldl (fun a mv => min a (f mv)) ⊤) := by
  intro l
  induction l with
  | nil => intro x; simp [min_eq_left le_top]
  | cons mv rest ih =>
    intro x
    simp only [List.foldl_cons]
    rw [ih (min x (f mv)), ih (min ⊤ (f mv)), min_comm ⊤ (f mv), min_eq_left le_top,
      min_assoc]

/-- Pulling a common folded tail `K` out of the window clamp: the clamped
combination with `K` agrees whenever the clamped heads agree. -/
lemma clamp_fold_congr (beta alpha0 m x y K : Score)
    (hxy : max alpha0 (min beta (max m x)) = max alpha0 (min beta (max m y))) :
    max alpha0 (min beta (max (max m x) K)) = max alpha0 (min beta (max (max m y) K)) := by
  rw [min_max_distrib_left beta (max m x) K, min_max_distrib_left beta (max m y) K,
    ← max_assoc alpha0 (min beta (max m x)) (min beta K),
    ← max_assoc alpha0 (min beta (max m y)) (min beta K), hxy]

lemma clamp_fold_congr_min (alpha beta0 m x y K : Score)
    (hxy : max alpha (min beta0 (min m x)) = max alpha (min beta0 (min m y))) :
    max alpha (min beta0 (min (min m x) K)) = max alpha (min beta0 (min (min m y) K)) := by
  rw [← min_assoc beta0 (min m x) K, ← min_assoc beta0 (min m y) K,
    max_min_distrib_left alpha (min beta0 (min m x)) K,
    max_min_distrib_left alpha (min beta0 (min m y)) K, hxy]

lemma maxLoop_clamp {μ : Type} (beta : Score) (recur : μ → Score → Score) (v : μ → Score)
    (hchild : ∀ mv a, a < beta → max a (min beta (recur mv a)) = max a (min beta (v mv))) :
    ∀ (l : List μ) (alpha0 m a : Score), a = max alpha0 m → a < beta →
      max alpha0 (min beta (maxLoop beta recur l m a)) =
      max alpha0 (min beta (l.foldl (fun x mv => max x (v mv)) m)) := by
  intro l
  induction l with
  | nil => intro alpha0 m a _ _; simp [maxLoop]
  | cons mv rest ih =>
    intro alpha0 m a ha hab
    simp only [maxLoop, List.foldl_cons]
    set c := recur mv a with hcdef
    have hma : m ≤ a := ha ▸ le_max_right alpha0 m
    have ha' : max a (max m c) = max a c := by
      rw [← max_assoc, max_eq_left hma]
    have hcv := hchild mv a hab
    rw [← hcdef] at hcv
    by_cases hbreak : beta ≤ max a (max m c)
    · rw [if_pos hbreak]
      have hbc : beta ≤ c := by
        rcases le_max_iff.mp (ha' ▸ hbreak) with h | h
        · exact absurd h (not_le_of_lt hab)
        · exact h
      have hbv : beta ≤ v mv := by
        rw [min_eq_left hbc, max_eq_right hab.le] at hcv
        by_contra hv
        push_neg at hv
        rw [min_eq_right hv.le] at hcv
        exact (ne_of_lt (max_lt hab hv)) hcv.symm
      rw [min_eq_left (le_trans hbc (le_max_right m c)), foldl_max_init,
        min_eq_left (le_trans hbv (le_trans (le_max_right m (v mv)) (le_max_left _ _)))]
    · rw [if_neg hbreak]
      have hcont : max a (max m c) < beta := not_le.mp hbreak
      have hinv : max a (max m c) = max alpha0 (max m c) := by
        rw [ha, max_assoc, ← max_assoc m m c, max_self]
      rw [ih alpha0 (max m c) (max a (max m c)) hinv hcont]
      have hc_lt : c < beta :=
        lt_of_le_of_lt (le_trans (le_max_right m c) (le_max_right a (max m c))) hcont
      have hsub : max alpha0 (min beta (max m c)) = max alpha0 (min beta (max m (v mv))) := by
        by_cases hca : c ≤ a
        · have hva : v mv ≤ a := by
            rw [min_eq_right hc_lt.le, max_eq_left hca] at hcv
            by_contra hv
            push_neg at hv
            rcases le_or_lt beta (v mv) with hbv | hvb
            · rw [min_eq_left hbv, max_eq_right hab.le] at hcv
              exact (ne_of_lt hab) hcv
            · rw [min_eq_right hvb.le, max_eq_right hv.le] at hcv
              exact (ne_of_lt hv) hcv
          have helper : ∀ x : Score, x ≤ a →
              max alpha0 (min beta (max m x)) = max alpha0 m := by
            intro x hx
            have h1 : max m x ≤ a := max_le hma hx
            rw [min_eq_right (lt_of_le_of_lt h1 hab).le]
            refine le_antisymm (max_le (le_max_left _ _) ?_)
              (max_le_max le_rfl (le_max_left m x))
            exact le_trans h1 (le_of_eq ha)
          rw [helper c hca, helper (v mv) hva]
        · push_neg at hca
          have hvc : v mv = c := by
            rw [min_eq_right hc_lt.le, max_eq_right hca.le] at hcv
            rcases le_or_lt beta (v mv) with hbv | hvb
            · rw [min_eq_left hbv, max_eq_right hab.le] at hcv
              exact absurd hcv (ne_of_lt hc_lt)
            · rw [min_eq_right hvb.le] at hcv
              rcases le_or_lt (v mv) a with h1 | h1
              · rw [max_eq_left h1] at hcv
                exact absurd hcv.symm (ne_of_lt hca)
              · rw [max_eq_right h1.le] at hcv
                exact hcv.symm
          rw [hvc]
      rw [foldl_max_init v rest (max m c), foldl_max_init v rest (max m (v mv))]
      exact clamp_fold_congr beta alpha0 m c (v mv) _ hsub

lemma minLoop_clamp {μ : Type} (alpha : Score) (recur : μ → Score → Score) (v : μ → Score)
    (hchild : ∀ mv b, alpha < b → max alpha (min b (recur mv b)) = max alpha (min b (v mv))) :
    ∀ (l : List μ) (beta0 m b : Score), b = min beta0 m → alpha < b →
      max alpha (min beta0 (minLoop alpha recur l m b)) =
      max alpha (min beta0 (l.foldl (fun x mv => min x (v mv)) m)) := by
  intro l
  induction l with
  | nil => intro beta0 m b _ _; simp [minLoop]
  | cons mv rest ih =>
    intro beta0 m b hb hab
    simp only [minLoop, List.foldl_cons]
    set c := recur mv b with hcdef
    have hmb : b ≤ m := hb ▸ min_le_right beta0 m
    have hb' : min b (min m c) = min b c := by
      rw [← min_assoc, min_eq_left hmb]
    have hcv := hchild mv b hab
    rw [← hcdef] at hcv
    by_cases hbreak : min b (min m c) ≤ alpha
    · rw [if_pos hbreak]
      have hca : c ≤ alpha := by
        rcases min_le_iff.mp (hb' ▸ hbreak) with h | h
        · exact absurd h (not_le_of_lt hab)
        · exact h
      have hva : v mv ≤ alpha := by
        rw [min_eq_right (lt_of_le_of_lt hca hab).le, max_eq_left hca] at hcv
        by_contra hv
        push_neg at hv
        rcases le_or_lt b (v mv) with hbv | hvb
        · rw [min_eq_left hbv, max_eq_right hab.le] at hcv
          exact (ne_of_lt hab) hcv
        · rw [min_eq_right hvb.le, max_eq_right hv.le] at hcv
          exact (ne_of_lt hv) hcv
      rw [max_eq_left (le_trans (min_le_right beta0 (min m c))
          (le_trans (min_le_right m c) hca)),
        foldl_min_init,
        max_eq_left (le_trans (min_le_right beta0 _)
          (le_trans (le_trans (min_le_left (min m (v mv)) _) (min_le_right m (v mv))) hva))]
    · rw [if_neg hbreak]
      have hcont : alpha < min b (min m c) := not_le.mp hbreak
      have hinv : min b (min m c) = min beta0 (min m c) := by
        rw [hb, min_assoc, ← min_assoc m m c, min_self]
      rw [ih beta0 (min m c) (min b (min m c)) hinv hcont]
      have hc_gt : alpha < c :=
        lt_of_lt_of_le hcont (le_trans (le_of_eq hb') (min_le_right b c))
      have hsub : max alpha (min beta0 (min m c)) = max alpha (min beta0 (min m (v mv))) := by
        by_cases hcb : b ≤ c
        · have hvb : b ≤ v mv := by
            rw [min_eq_left hcb, max_eq_right hab.le] at hcv
            by_contra hv
            push_neg at hv
            rw [min_eq_right hv.le] at hcv
            rcases le_or_lt (v mv) alpha with h1 | h1
            · rw [max_eq_left h1] at hcv
              exact absurd hcv.symm (ne_of_lt hab)
            · rw [max_eq_right h1.le] at hcv
              exact absurd hcv.symm (ne_of_lt hv)
          have helper : ∀ x : Score, b ≤ x → min beta0 (min m x) = min beta0 m := by
            intro x hx
            calc min beta0 (min m x) = min (min beta0 m) x := (min_assoc beta0 m x).symm
            _ = min b x := by rw [← hb]
            _ = b := min_eq_left hx
            _ = min beta0 m := hb
          rw [helper c hcb, helper (v mv) hvb]
        · push_neg at hcb
          have hvc : v mv = c := by
            rw [min_eq_right hcb.le, max_eq_right hc_gt.le] at hcv
            rcases le_or_lt b (v mv) with h1 | h1
            · rw [min_eq_left h1, max_eq_right hab.le] at hcv
              exact absurd hcv (ne_of_lt hcb)
            · rw [min_eq_right h1.le] at hcv
              rcases le_or_lt (v mv) alpha with h2 | h2
              · rw [max_eq_left h2] at hcv
                exact absurd hcv.symm (ne_of_lt hc_gt)
              · rw [max_eq_right h2.le] at hcv
                exact hcv.symm
          rw [hvc]
      rw [foldl_min_init v rest (min m c), foldl_min_init v rest (min m (v mv))]
      exact clamp_fold_congr_min alpha beta0 m c (v mv) _ hsub

/-- Fail-soft alpha-beta invariant: inside any window `alpha < beta`, the
pruned and the exhaustive minimax values agree after clamping to the window. -/
lemma minimaxPureF_clamp :
    ∀ (fuel : ℕ) (s : σ) (d : ℕ) (alpha beta : Score), alpha < beta →
      max alpha (min beta (minimaxPureF g fuel s d alpha beta)) =
      max alpha (min beta (plainMinimaxF g fuel s d)) := by
  intro fuel
  induction fuel with
  | zero =>
    intro s d alpha beta _
    cases h : getTerminalNodeState g s d with
    | some v => rw [minimaxPureF_term g h, plainMinimaxF_term g h]
    | none => simp [minimaxPureF, plainMinimaxF, h]
  | succ fuel ih =>
    intro s d alpha beta hab
    cases h : getTerminalNodeState g s d with
    | some v => rw [minimaxPureF_term g h, plainMinimaxF_term g h]
    | none =>
      cases hm : g.moverIsMaximizing s with
      | true =>
        rw [minimaxPureF_succ_max g h hm, plainMinimaxF_succ_max g h hm]
        exact maxLoop_clamp beta
          (fun mv a' => minimaxPureF g fuel (g.applyMoveAndTurn s mv) (d + 1) a' beta)
          (fun mv => plainMinimaxF g fuel (g.applyMoveAndTurn s mv) (d + 1))
          (fun mv a ha => ih (g.applyMoveAndTurn s mv) (d + 1) a beta ha)
          (g.getAllPossibleMoves s true) alpha ⊥ alpha (max_eq_left bot_le).symm hab
      | false =>
        rw [minimaxPureF_succ_min g h hm, plainMinimaxF_succ_min g h hm]
        exact minLoop_clamp alpha
          (fun mv b' => minimaxPureF g fuel (g.applyMoveAndTurn s mv) (d + 1) alpha b')
          (fun mv => plainMinimaxF g fuel (g.applyMoveAndTurn s mv) (d + 1))
          (fun mv b hb => ih (g.applyMoveAndTurn s mv) (d + 1) alpha b hb)
          (g.getAllPossibleMoves s false) beta ⊤ beta (min_eq_left le_top).symm hab


/-- At the full window `(-Infinity, Infinity)` the pruning search equals the
exhaustive minimax exactly. -/
lemma minimaxPureF_bot_top (fuel : ℕ) (s : σ) (d : ℕ) :
    minimaxPureF g fuel s d ⊥ ⊤ = plainMinimaxF g fuel s d := by
  have h := minimaxPureF_clamp g fuel s d ⊥ ⊤ bot_lt_top
  rw [min_eq_right le_top, min_eq_right le_top, max_eq_right bot_le,
    max_eq_right bot_le] at h
  exact h

lemma rootScore_eq_exhaustive (s : σ) : rootScore g s = rootScoreExhaustive g s := by
  funext mv
  unfold rootScore rootScoreExhaustive minimaxPure plainMinimax
  exact minimaxPureF_bot_top g _ _ _

lemma findBestMovePure_eq_exhaustive (s : σ) :
    findBestMovePure g s = findBestMoveExhaustive g s := by
  unfold findBestMovePure findBestMoveExhaustive
  rw [rootScore_eq_exhaustive]

/-! ### Characterization of the root selection loop -/

lemma findBestMoveLoop_all_le {μ : Type} (f : μ → Score) :
    ∀ (l : List μ) (b : Score) (best : Option μ),
      (∀ x ∈ l, f x ≤ b) → findBestMoveLoop f l b best = best := by
  intro l
  induction l with
  | nil => intro b best _; rfl
  | cons mv rest ih =>
    intro b best h
    simp only [findBestMoveLoop]
    rw [if_neg (not_lt.mpr (h mv (List.mem_cons_self mv rest)))]
    exact ih b best (fun x hx => h x (List.mem_cons_of_mem mv hx))

lemma findBestMoveLoop_gt {μ : Type} (f : μ → Score) :
    ∀ (l : List μ) (b : Score) (best : Option μ),
      (∃ x ∈ l, b < f x) →
      ∃ (i : ℕ) (hi : i < l.length),
        findBestMoveLoop f l b best = some (l.get ⟨i, hi⟩)
        ∧ b < f (l.get ⟨i, hi⟩)
        ∧ (∀ (j : ℕ) (hj : j < l.length), j < i → f (l.get ⟨j, hj⟩) < f (l.get ⟨i, hi⟩))
        ∧ (∀ (j : ℕ) (hj : j < l.length), f (l.get ⟨j, hj⟩) ≤ f (l.get ⟨i, hi⟩)) := by
  intro l
  induction l with
  | nil => intro b best h; simp at h
  | cons mv rest ih =>
    intro b best h
    simp only [findBestMoveLoop]
    by_cases hmv : b < f mv
    · rw [if_pos hmv]
      by_cases hrest : ∃ x ∈ rest, f mv < f x
      · obtain ⟨i, hi, heq, hgt, hearly, hall⟩ := ih (f mv) (some mv) hrest
        refine ⟨i + 1, Nat.succ_lt_succ hi, ?_, ?_, ?_, ?_⟩
        · simpa using heq
        · simpa using lt_trans hmv hgt
        · intro j hj hji
          cases j with
          | zero => simpa using hgt
          | succ j1 =>
            have hj1 : j1 < rest.length := Nat.lt_of_succ_lt_succ hj
            simpa using hearly j1 hj1 (Nat.lt_of_succ_lt_succ hji)
        · intro j hj
          cases j with
          | zero => simpa using hgt.le
          | succ j1 =>
            have hj1 : j1 < rest.length := Nat.lt_of_succ_lt_succ hj
            simpa using hall j1 hj1
      · push_neg at hrest
        rw [findBestMoveLoop_all_le f rest (f mv) (some mv) hrest]
        refine ⟨0, Nat.succ_pos _, by simp, by simpa using hmv, ?_, ?_⟩
        · intro j hj hj0
          exact absurd hj0 (Nat.not_lt_zero j)
        · intro j hj
          cases j with
          | zero => exact le_rfl
          | succ j1 =>
            have hj1 : j1 < rest.length := Nat.lt_of_succ_lt_succ hj
            simpa using hrest (rest.get ⟨j1, hj1⟩) (List.get_mem rest j1 hj1)
    · rw [if_neg hmv]
      have hb : ∃ x ∈ rest, b < f x := by
        obtain ⟨x, hx, hbx⟩ := h
        rcases List.mem_cons.mp hx with rfl | hx1
        · exact absurd hbx hmv
        · exact ⟨x, hx1, hbx⟩
      obtain ⟨i, hi, heq, hgt, hearly, hall⟩ := ih b best hb
      have hmle : f mv ≤ b := not_lt.mp hmv
      refine ⟨i + 1, Nat.succ_lt_succ hi, by simpa using heq, by simpa using hgt, ?_, ?_⟩
      · intro j hj hji
        cases j with
        | zero => simpa using lt_of_le_of_lt hmle hgt
        | succ j1 =>
          have hj1 : j1 < rest.length := Nat.lt_of_succ_lt_succ hj
          simpa using hearly j1 hj1 (Nat.lt_of_succ_lt_succ hji)
      · intro j hj
        cases j with
        | zero => simpa using (lt_of_le_of_lt hmle hgt).le
        | succ j1 =>
          have hj1 : j1 < rest.length := Nat.lt_of_succ_lt_succ hj
          simpa using hall j1 hj1

lemma findBestMovePure_spec {σ μ π : Type} (g : GameM σ μ π) (s : σ)
    (hmax : g.moverIsMaximizing s = true)
    (mv0 : μ) (rest : List μ) (hl : g.getAllPossibleMoves s true = mv0 :: rest) :
    findBestMovePure g s =
      Except.ok ((findBestMoveLoop (rootScore g s) (mv0 :: rest) ⊥ none).getD mv0) := by
  unfold findBestMovePure
  rw [hmax, hl]
  rfl

lemma Score.ofInt_ne_top (n : ℤ) : Score.ofInt n ≠ ⊤ := by
  simp [Score.ofInt]

lemma Score.ofInt_ne_bot (n : ℤ) : Score.ofInt n ≠ ⊥ := WithBot.coe_ne_bot

/-! ### The claims -/

/-- C1. For every board position of a mock collaborator satisfying the
apply/undo contract and every search depth at most 3, the score computed by
the alpha-beta `minimax` and the move chosen by `findBestMove` equal the
score and move of the exhaustive unpruned minimax over the same game tree. -/
theorem alphabeta_equals_exhaustive_minimax {σ μ π : Type} (g : GameM σ μ π)
    (s : σ) (d : ℕ) (hc : UndoContract g) (_hd : d ≤ 3) :
    (minimax g s d ⊥ ⊤).1 = plainMinimax g s d
    ∧ (findBestMove g s).1 = findBestMoveExhaustive g s := by
  constructor
  · rw [minimax_eq g hc]
    exact minimaxPureF_bot_top g _ s d
  · rw [findBestMove_eq g hc]
    exact findBestMovePure_eq_exhaustive g s

theorem alphabeta_equals_exhaustive_minimax_witness :
    (minimax exGame ((0 : ℤ), true) 0 ⊥ ⊤).1 = plainMinimax exGame ((0 : ℤ), true) 0
    ∧ (findBestMove exGame ((0 : ℤ), true)).1 = findBestMoveExhaustive exGame ((0 : ℤ), true) :=
  alphabeta_equals_exhaustive_minimax exGame ((0 : ℤ), true) 0 (fun _ _ => rfl) (by decide)

/-- C2. For every board satisfying the preconditions, assuming the
collaborator contract that `undoMove` of the captured snapshot is a left
inverse of `applyMoveAndTurn`, `findBestMove` leaves the board structurally
identical to its pre-call value: every apply in the root loop and in every
recursive frame is matched by an undo on every exit path, including pruned
branches. -/
theorem findBestMove_restores_board {σ μ π : Type} (g : GameM σ μ π) (s : σ)
    (hc : UndoContract g) (_hmax : g.moverIsMaximizing s = true)
    (_hne : g.getAllPossibleMoves s true ≠ []) :
    (findBestMove g s).2 = s := by
  rw [findBestMove_eq g hc]

theorem findBestMove_restores_board_witness :
    (findBestMove exGame ((0 : ℤ), true)).2 = ((0 : ℤ), true) :=
  findBestMove_restores_board exGame ((0 : ℤ), true) (fun _ _ => rfl) rfl (by decide)

/-- C3. For every board satisfying the preconditions, `findBestMove` returns
the first root candidate, in MoveGenerator emission order, whose evaluated
score is strictly greater than all earlier candidates' scores and not
exceeded by any later one; when every candidate scores exactly `-Infinity` it
returns the first candidate; it never returns `null` (the result is always
`Except.ok`). -/
theorem findBestMove_first_best_candidate {σ μ π : Type} (g : GameM σ μ π) (s : σ)
    (hc : UndoContract g) (hmax : g.moverIsMaximizing s = true)
    (l : List μ) (hl : g.getAllPossibleMoves s true = l) (hne : l ≠ []) :
    ∃ (i : ℕ) (hi : i < l.length),
      (findBestMove g s).1 = Except.ok (l.get ⟨i, hi⟩)
      ∧ (∀ (j : ℕ) (hj : j < l.length), j < i →
          rootScore g s (l.get ⟨j, hj⟩) < rootScore g s (l.get ⟨i, hi⟩))
      ∧ (∀ (j : ℕ) (hj : j < l.length),
          rootScore g s (l.get ⟨j, hj⟩) ≤ rootScore g s (l.get ⟨i, hi⟩))
      ∧ ((∀ mv ∈ l, rootScore g s mv = ⊥) → i = 0) := by
  obtain ⟨mv0, rest, rfl⟩ := List.exists_cons_of_ne_nil hne
  have hfb : (findBestMove g s).1 =
      Except.ok ((findBestMoveLoop (rootScore g s) (mv0 :: rest) ⊥ none).getD mv0) := by
    rw [findBestMove_eq g hc]
    exact findBestMovePure_spec g s hmax mv0 rest hl
  by_cases hall : ∀ mv ∈ (mv0 :: rest), rootScore g s mv = ⊥
  · rw [findBestMoveLoop_all_le (rootScore g s) (mv0 :: rest) ⊥ none
      (fun x hx => le_of_eq (hall x hx))] at hfb
    refine ⟨0, Nat.succ_pos _, by simpa using hfb, ?_, ?_, fun _ => rfl⟩
    · intro j hj hj0
      exact absurd hj0 (Nat.not_lt_zero j)
    · intro j hj
      have h1 := hall _ (List.get_mem (mv0 :: rest) j hj)
      have h2 := hall _ (List.get_mem (mv0 :: rest) 0 (Nat.succ_pos _))
      exact le_of_eq (h1.trans h2.symm)
  · have hex : ∃ x ∈ (mv0 :: rest), (⊥ : Score) < rootScore g s x := by
      push_neg at hall
      obtain ⟨x, hx, hxne⟩ := hall
      exact ⟨x, hx, bot_lt_iff_ne_bot.mpr hxne⟩
    obtain ⟨i, hi, heq, _, hearly, hallle⟩ :=
      findBestMoveLoop_gt (rootScore g s) (mv0 :: rest) ⊥ none hex
    rw [heq] at hfb
    refine ⟨i, hi, by simpa using hfb, hearly, hallle, ?_⟩
    intro habs
    push_neg at hall
    obtain ⟨x, hx, hxne⟩ := hall
    exact absurd (habs x hx) hxne

theorem findBestMove_first_best_candidate_witness :
    ∃ (i : ℕ) (hi : i < ([(0 : ℤ), 1]).length),
      (findBestMove exGame ((0 : ℤ), true)).1 = Except.ok (([(0 : ℤ), 1]).get ⟨i, hi⟩)
      ∧ (∀ (j : ℕ) (hj : j < ([(0 : ℤ), 1]).length), j < i →
          rootScore exGame ((0 : ℤ), true) (([(0 : ℤ), 1]).get ⟨j, hj⟩) <
            rootScore exGame ((0 : ℤ), true) (([(0 : ℤ), 1]).get ⟨i, hi⟩))
      ∧ (∀ (j : ℕ) (hj : j < ([(0 : ℤ), 1]).length),
          rootScore exGame ((0 : ℤ), true) (([(0 : ℤ), 1]).get ⟨j, hj⟩) ≤
            rootScore exGame ((0 : ℤ), true) (([(0 : ℤ), 1]).get ⟨i, hi⟩))
      ∧ ((∀ mv ∈ ([(0 : ℤ), 1]), rootScore exGame ((0 : ℤ), true) mv = ⊥) → i = 0) :=
  findBestMove_first_best_candidate exGame ((0 : ℤ), true) (fun _ _ => rfl) rfl
    [(0 : ℤ), 1] rfl (by decide)

/-- C4. Calling `findBestMove` when the active player is not the maximizing
player raises the `WrongTurn` error, and calling it when the move generator
returns no candidates for the root position raises the `NoLegalMoves` error;
both errors are raised before any `applyMoveAndTurn`, leaving the board
unchanged. -/
theorem findBestMove_precondition_errors {σ μ π : Type} (g : GameM σ μ π) (s : σ) :
    (g.moverIsMaximizing s = false →
      findBestMove g s = (Except.error SearchError.wrongTurn, s))
    ∧ (g.moverIsMaximizing s = true → g.getAllPossibleMoves s true = [] →
      findBestMove g s = (Except.error SearchError.noLegalMoves, s)) := by
  constructor
  · intro h
    unfold findBestMove
    rw [h]
    simp
  · intro h hmv
    unfold findBestMove
    rw [h, hmv]
    simp

theorem findBestMove_precondition_errors_witness :
    findBestMove exGame ((0 : ℤ), false)
        = (Except.error SearchError.wrongTurn, ((0 : ℤ), false))
    ∧ findBestMove exGameNoMoves ((0 : ℤ), true)
        = (Except.error SearchError.noLegalMoves, ((0 : ℤ), true)) :=
  ⟨(findBestMove_precondition_errors exGame ((0 : ℤ), false)).1 rfl,
    (findBestMove_precondition_errors exGameNoMoves ((0 : ℤ), true)).2 rfl rfl⟩

/-- C5. At every node, before any move generation, the terminal test runs in
this order: a win of the maximizing player gives `Infinity`; otherwise a win
of the minimizing player gives `-Infinity`; otherwise at the depth cutoff the
heuristic score is returned; only otherwise is the test `null` and the node
expanded. Whenever the test returns a value, `minimax` returns exactly that
value (at any depth, regardless of the heuristic — in particular a maximizer
win yields `Infinity` at depth 0). -/
theorem terminal_test_order {σ μ π : Type} (g : GameM σ μ π) (s : σ) (d : ℕ)
    (alpha beta : Score) :
    (getTerminalNodeState g s d = some ⊤ ↔ g.checkWin s true = true)
    ∧ (getTerminalNodeState g s d = some ⊥ ↔
        (g.checkWin s true = false ∧ g.checkWin s false = true))
    ∧ (getTerminalNodeState g s d = some (Score.ofInt (g.heuristicScore s)) ↔
        (g.checkWin s true = false ∧ g.checkWin s false = false ∧ d = max_search_depth))
    ∧ (getTerminalNodeState g s d = none ↔
        (g.checkWin s true = false ∧ g.checkWin s false = false ∧ d ≠ max_search_depth))
    ∧ (∀ v : Score, getTerminalNodeState g s d = some v →
        minimax g s d alpha beta = (v, s)) := by
  have hot : Score.ofInt (g.heuristicScore s) ≠ ⊤ := Score.ofInt_ne_top _
  have hob : Score.ofInt (g.heuristicScore s) ≠ ⊥ := Score.ofInt_ne_bot _
  refine ⟨?_, ?_, ?_, ?_, fun v hv => minimaxMutF_term g hv _ alpha beta⟩ <;>
    cases hw1 : g.checkWin s true <;> cases hw2 : g.checkWin s false <;>
      by_cases hd : d = max_search_depth <;>
        simp [getTerminalNodeState, hw1, hw2, hd, hot, hob, Ne.symm hot, Ne.symm hob]

theorem terminal_test_order_witness :
    getTerminalNodeState exGameWin ((0 : ℤ), true) 0 = some ⊤
    ∧ minimax exGameWin ((0 : ℤ), true) 0 ⊥ ⊤ = (⊤, ((0 : ℤ), true)) := by
  have h := terminal_test_order exGameWin ((0 : ℤ), true) 0 ⊥ ⊤
  exact ⟨h.1.mpr rfl, h.2.2.2.2 ⊤ (h.1.mpr rfl)⟩

/-- C10. At a non-terminal interior node (no win, depth strictly below the
cutoff) where the mover has no legal moves, the candidate loop never runs and
`minimax` returns its initial best value: `-Infinity` for the maximizing
mover and `Infinity` for the minimizing mover — an interior stalemate is
scored as a forced loss for the side to move. -/
theorem minimax_stalemate_scores_loss {σ μ π : Type} (g : GameM σ μ π) (s : σ)
    (d : ℕ) (alpha beta : Score) (hd : d < max_search_depth)
    (hw1 : g.checkWin s true = false) (hw2 : g.checkWin s false = false)
    (hmv : g.getAllPossibleMoves s (g.moverIsMaximizing s) = []) :
    minimax g s d alpha beta = ((if g.moverIsMaximizing s then ⊥ else ⊤), s) := by
  have hterm : getTerminalNodeState g s d = none := by
    simp [getTerminalNodeState, hw1, hw2, Nat.ne_of_lt hd]
  obtain ⟨f1, hf⟩ : ∃ f1, max_search_depth + 1 - d = f1 + 1 :=
    ⟨max_search_depth - d, by omega⟩
  unfold minimax
  rw [hf]
  cases hm : g.moverIsMaximizing s with
  | true =>
    rw [minimaxMutF_succ_max g hterm hm]
    rw [hm] at hmv
    rw [hmv]
    simp [maxLoopMut]
  | false =>
    rw [minimaxMutF_succ_min g hterm hm]
    rw [hm] at hmv
    rw [hmv]
    simp [minLoopMut]

theorem minimax_stalemate_scores_loss_witness :
    minimax exGameNoMoves ((0 : ℤ), true) 0 ⊥ ⊤ =
      ((if exGameNoMoves.moverIsMaximizing ((0 : ℤ), true) then ⊥ else ⊤), ((0 : ℤ), true)) :=
  minimax_stalemate_scores_loss exGameNoMoves ((0 : ℤ), true) 0 ⊥ ⊤ (by decide) rfl rfl rfl

/-! ### The heuristic formula and its monotonicity -/

lemma heur_foldl (pB pU : GamePlayer) :
    ∀ (cells : List GridCell) (acc : HeurAcc),
      cells.foldl (heurStep pB pU) acc =
        ⟨acc.botTowers + towerCount cells pB.id,
         acc.userTowers + towerCount cells pU.id,
         acc.botTowerSecureWeight + securedWeightBot cells pB.id,
         acc.userTowerSecureWeight + securedWeightUser cells pU.id⟩ := by
  intro cells
  induction cells with
  | nil =>
    intro acc
    simp [towerCount, securedWeightBot, securedWeightUser]
  | cons c l ih =>
    intro acc
    simp only [List.foldl_cons]
    rw [ih]
    by_cases hb : c.svgLayout.getLast? = some pB.id
    · by_cases hu : c.svgLayout.getLast? = some pU.id
      · have hid : pB.id = pU.id := Option.some.inj (hb.symm.trans hu)
        by_cases hdot : c.dot = true <;>
          simp [heurStep, towerCount, securedWeightBot, securedWeightUser,
            List.filter_cons, hb, hu, hid, hdot] <;>
          (try constructorm* _ ∧ _) <;> ring1
      · have hid : pB.id ≠ pU.id := fun h => hu (by rw [← h]; exact hb)
        by_cases hdot : c.dot = true <;>
          simp [heurStep, towerCount, securedWeightBot, securedWeightUser,
            List.filter_cons, hb, hu, hid, Ne.symm hid, hdot] <;>
          (try constructorm* _ ∧ _) <;> ring1
    · by_cases hu : c.svgLayout.getLast? = some pU.id
      · have hid : pB.id ≠ pU.id := fun h => hb (by rw [h]; exact hu)
        by_cases hdot : c.dot = true <;>
          simp [heurStep, towerCount, securedWeightBot, securedWeightUser,
            List.filter_cons, hb, hu, hid, Ne.symm hid, hdot] <;>
          (try constructorm* _ ∧ _) <;> ring1
      · by_cases hdot : c.dot = true <;>
          simp [heurStep, towerCount, securedWeightBot, securedWeightUser,
            List.filter_cons, hb, hu, hdot]

/-- C6. The depth-cutoff heuristic equals the spec's aggregate formula
(tower-count difference times 10, plus secured-weight difference — `row + 1`
per secured maximizer cell against `6 - row` per secured minimizer cell —
times 10, plus captured-opponent-material difference times 20), and that
formula is strictly monotone in each of the maximizer's three quantities. -/
theorem heuristic_formula_and_monotonicity :
    (∀ (cells : List GridCell) (pB pU : GamePlayer),
      heuristicScore cells pB pU =
        heuristicOfParts (towerCount cells pB.id) (towerCount cells pU.id)
          (securedWeightBot cells pB.id) (securedWeightUser cells pU.id)
          (pB.vault.opponent : ℤ) (pU.vault.opponent : ℤ))
    ∧ (∀ bt bt1 ut bw uw vb vu : ℤ, bt < bt1 →
        heuristicOfParts bt ut bw uw vb vu < heuristicOfParts bt1 ut bw uw vb vu)
    ∧ (∀ bt ut bw bw1 uw vb vu : ℤ, bw < bw1 →
        heuristicOfParts bt ut bw uw vb vu < heuristicOfParts bt ut bw1 uw vb vu)
    ∧ (∀ bt ut bw uw vb vb1 vu : ℤ, vb < vb1 →
        heuristicOfParts bt ut bw uw vb vu < heuristicOfParts bt ut bw uw vb1 vu) := by
  refine ⟨?_, ?_, ?_, ?_⟩
  · intro cells pB pU
    unfold heuristicScore heuristicOfParts
    rw [heur_foldl pB pU cells ⟨0, 0, 0, 0⟩]
    simp
  · intro bt bt1 ut bw uw vb vu h
    unfold heuristicOfParts
    linarith
  · intro bt ut bw bw1 uw vb vu h
    unfold heuristicOfParts
    linarith
  · intro bt ut bw uw vb vb1 vu h
    unfold heuristicOfParts
    linarith

theorem heuristic_formula_and_monotonicity_witness :
    heuristicScore [⟨0, [PlayerId.bot], true⟩] playerBotEx playerUserEx =
      heuristicOfParts (towerCount [⟨0, [PlayerId.bot], true⟩] playerBotEx.id)
        (towerCount [⟨0, [PlayerId.bot], true⟩] playerUserEx.id)
        (securedWeightBot [⟨0, [PlayerId.bot], true⟩] playerBotEx.id)
        (securedWeightUser [⟨0, [PlayerId.bot], true⟩] playerUserEx.id)
        (playerBotEx.vault.opponent : ℤ) (playerUserEx.vault.opponent : ℤ)
    ∧ heuristicOfParts 0 0 0 0 0 0 < heuristicOfParts 1 0 0 0 0 0
    ∧ heuristicOfParts 0 0 0 0 0 0 < heuristicOfParts 0 0 1 0 0 0
    ∧ heuristicOfParts 0 0 0 0 0 0 < heuristicOfParts 0 0 0 0 1 0 :=
  ⟨heuristic_formula_and_monotonicity.1 [⟨0, [PlayerId.bot], true⟩] playerBotEx playerUserEx,
    heuristic_formula_and_monotonicity.2.1 0 1 0 0 0 0 0 (by decide),
    heuristic_formula_and_monotonicity.2.2.1 0 0 0 1 0 0 0 (by decide),
    heuristic_formula_and_monotonicity.2.2.2 0 0 0 0 0 1 0 (by decide)⟩

/-! ### Settings threading and the fixed search depth -/

/-- C7 counterexample. The supplied settings snapshots `factorySettings` and
`settingsHighThresholds` disagree on whether `playerBotEx` has won per the
spec's `isWin(board, player, settings)`, and a win evaluator that did take
its thresholds from the supplied snapshot would change the chosen move
(`exGameC7Alt` versus `exGameC7`); yet the search invoked with either
snapshot returns identical results — `checkWin(boardState, player)` is
invoked without any settings from the search, so the thresholds cannot come
from the supplied snapshot. -/
theorem checkWin_not_from_supplied_settings_cex :
    isWinSpec playerBotEx factorySettings = true
    ∧ isWinSpec playerBotEx settingsHighThresholds = false
    ∧ findBestMoveCall exGameC7 ((0 : ℤ), true) factorySettings
        = findBestMoveCall exGameC7 ((0 : ℤ), true) settingsHighThresholds
    ∧ (findBestMove exGameC7 ((0 : ℤ), true)).1 = Except.ok 0
    ∧ (findBestMove exGameC7Alt ((0 : ℤ), true)).1 = Except.ok 1 :=
  ⟨rfl, rfl, rfl, rfl, rfl⟩

/-- C7 amended. The terminal win test invokes `checkWin(board, player)` as a
function of the board and the player only: the search is supplied no settings
snapshot (`findBestMove` declares a single parameter, so the snapshot passed
at the AiWorker call site is discarded), hence the win thresholds cannot come
from a search-supplied snapshot and the search outcome is invariant under it. -/
theorem findBestMoveCall_settings_invariant {σ μ π : Type} (g : GameM σ μ π)
    (s : σ) (st1 st2 : Settings) :
    findBestMoveCall g s st1 = findBestMoveCall g s st2 := rfl

/-- C8. The search's cutoff depth is the fixed constant 4, independent of the
user-configurable search-depth setting: two settings snapshots that differ
only in the search-depth value produce identical `findBestMove` results on
the same board. -/
theorem search_depth_constant_and_setting_independent :
    max_search_depth = 4
    ∧ (∀ {σ μ π : Type} (g : GameM σ μ π) (s : σ) (st1 st2 : Settings),
        st1.winningRules = st2.winningRules →
        st1.searchRules.timeout = st2.searchRules.timeout →
        findBestMoveCall g s st1 = findBestMoveCall g s st2) := by
  refine ⟨rfl, ?_⟩
  intro σ' μ' π' g s st1 st2 _ _
  rfl

theorem search_depth_constant_and_setting_independent_witness :
    (⟨factoryWinningRules, ⟨4, 10⟩⟩ : Settings) ≠ (⟨factoryWinningRules, ⟨9, 10⟩⟩ : Settings)
    ∧ findBestMoveCall exGame ((0 : ℤ), true) ⟨factoryWinningRules, ⟨4, 10⟩⟩
        = findBestMoveCall exGame ((0 : ℤ), true) ⟨factoryWinningRules, ⟨9, 10⟩⟩ :=
  ⟨by decide,
    search_depth_constant_and_setting_independent.2 exGame ((0 : ℤ), true)
      ⟨factoryWinningRules, ⟨4, 10⟩⟩ ⟨factoryWinningRules, ⟨9, 10⟩⟩ rfl rfl⟩

/-! ### The worker boundary race -/

/-- C9. If the configured timer fires before the worker's response arrives,
the boundary call resolves with the timeout-tagged response
(`response.error = true`, `response.message = "timeout"`), and the worker
computation is not interrupted or cancelled — its eventual response is
discarded (the settled result is independent of whatever response event
follows); if the worker responds first, the resolved value is the worker's
response. -/
theorem dispatchWorker_timeout_race :
    (∀ rest : List BoundaryEvent,
      raceSettle (BoundaryEvent.timerFired :: rest) = some (Except.ok timeoutMessage))
    ∧ timeoutMessage.responseError = true
    ∧ timeoutMessage.responseMessage = some "timeout"
    ∧ (∀ (r1 r2 : WorkerEnvelope) (rest : List BoundaryEvent),
        raceSettle (BoundaryEvent.timerFired :: BoundaryEvent.workerMessage r1 :: rest)
          = raceSettle (BoundaryEvent.timerFired :: BoundaryEvent.workerMessage r2 :: rest))
    ∧ (∀ (r : WorkerEnvelope) (rest : List BoundaryEvent),
        raceSettle (BoundaryEvent.workerMessage r :: rest) = some (Except.ok r)) :=
  ⟨fun _ => rfl, rfl, rfl, fun _ _ _ => rfl, fun _ _ => rfl⟩

end TwoPlayerGame
